import Mathlib

/-!
Verification development for the cfdm decompression-and-indexing core.

The Python source is shallowly embedded:

* a (possibly masked) numpy array becomes `MArr`: a shape together with a
  total valuation from index assignments (`Nat → Nat`, only the components
  below the rank matter) to `Option Int`, where `none` models a masked cell;
* `Array.get_subspace` (src/cfdm/data/abstract/array.py) becomes
  `get_subspace`, with its canonical per-axis index form `List AxIdx`
  (`Ellipsis` is modelled by `none : Option (List AxIdx)`);
* `CompressedArray.__getitem__` (src/cfdm/data/filearray.py) becomes
  `compGetItem`, with the compression-descriptor mapping embedded as an
  association list of `(type, parameters)` pairs, mirroring the
  `self.compression.items()[0]` access of the source;
* `NetCDFFileArray.__getitem__` variable location and the fixed-width text
  collapse become `netcdfLocate` and `collapseStrings`;
* aliasing behaviour of `get_subspace` (which the pure value model cannot
  see) is embedded separately in a store-passing model, `getSubspaceSt`,
  whose buffers carry explicit identities.
-/

namespace Cfdm

/-- One entry of the canonical per-axis index form accepted by
`Array.get_subspace`: either a `slice(start, stop, step)` object (a `stop`
of `none` models python `None`, i.e. up to the end of the axis) or a
sequence of integer positions.  Only non-negative slice parameters are
modelled, which covers every index produced for the claims under test. -/
inductive AxIdx where
| sl (start : Nat) (stop : Option Nat) (step : Nat)
| ints (l : List Nat)

/-- The python value `slice(None)`: select everything along an axis. -/
def slAll : AxIdx := .sl 0 none 1

instance : Inhabited AxIdx := ⟨slAll⟩

/-- Decide whether an entry is a sequence of integers, mirroring
`not isinstance(x, slice)` in `Array.get_subspace`. -/
def AxIdx.isInts : AxIdx → Bool
| .sl _ _ _ => false
| .ints _ => true

/-- The list of source positions a slice selects along an axis of size `d`
(python slice semantics for non-negative parameters; a zero step selects
nothing, matching the fact that python rejects it). -/
def sliceList (d start : Nat) (stop : Option Nat) (step : Nat) : List Nat :=
  if step = 0 then []
  else (List.range ((min (stop.getD d) d - start + step - 1) / step)).map
    (fun k => start + k * step)

/-- The list of source positions an index entry selects along an axis of
size `d`. -/
def axSel (d : Nat) : AxIdx → List Nat
| .sl s t st => sliceList d s t st
| .ints l => l

/-- A dense, possibly masked numpy array: a shape and a valuation of index
assignments.  A cell value of `none` models a masked position.  Only the
index components below `shape.length` are meaningful; `Proper` states that
the valuation respects this. -/
structure MArr where
  shape : List Nat
  val : (Nat → Nat) → Option Int

/-- An array valuation depends only on the index components below the
rank (true of every actual numpy array). -/
def MArr.Proper (a : MArr) : Prop :=
  ∀ f g : Nat → Nat, (∀ i, i < a.shape.length → f i = g i) → a.val f = a.val g

/-- An index assignment is valid for a shape when every component is
within the corresponding axis. -/
def validIdx (shape : List Nat) (idx : Nat → Nat) : Prop :=
  ∀ i, i < shape.length → idx i < shape.getD i 0

/-- The per-component source position selected by a canonical index: the
result position `idx i` along axis `i` names source position
`(axSel d e).getD (idx i) 0` where `d` and `e` are the axis size and the
axis entry. -/
def selFun (shape : List Nat) (ix : List AxIdx) (idx : Nat → Nat) : Nat → Nat :=
  fun i => (axSel (shape.getD i 0) (ix.getD i slAll)).getD (idx i) 0

/-- Combined ("bracket-style") application of a canonical index to an
array, each axis selecting its positions independently.  This is the
meaning of `array[tuple(indices)]` for the restricted index language of
`Array.get_subspace`, in which at most one entry handed to the combined
operation is an integer sequence (a single integer-array index in numpy
keeps its axis in place and selects along it independently). -/
def applyIndex (a : MArr) (ix : List AxIdx) : MArr :=
  { shape := List.zipWith (fun d x => (axSel d x).length) a.shape ix,
    val := fun idx => a.val (selFun a.shape ix idx) }

/-- `numpy.take(array, l, axis)` (and `numpy.ma.take`): select the
positions `l` along one axis only. -/
def takeAx (a : MArr) (l : List Nat) (axis : Nat) : MArr :=
  { shape := a.shape.set axis l.length,
    val := fun idx => a.val (Function.update idx axis (l.getD (idx axis) 0)) }

/-- The ascending positions of the integer-sequence entries of a canonical
index, mirroring
`[i for i, x in enumerate(indices) if not isinstance(x, slice)]`. -/
def listAxes (ix : List AxIdx) : List Nat :=
  (List.range ix.length).filter (fun p => (ix.getD p slAll).isInts)

/-- The integer list stored at a given axis of the canonical index
(the source reads `indices[axis]`, which at these positions is a list). -/
def intsAt (ix : List AxIdx) (axis : Nat) : List Nat :=
  match ix.getD axis slAll with
  | .ints l => l
  | .sl _ _ _ => []

/-- The loop `for axis in axes_with_list_indices: array = take(array,
indices[axis], axis=axis); indices[axis] = slice(None)` of
`Array.get_subspace`. -/
def takeLoop : MArr → List AxIdx → List Nat → MArr × List AxIdx
| a, ix, [] => (a, ix)
| a, ix, axis :: rest => takeLoop (takeAx a (intsAt ix axis) axis) (ix.set axis slAll) rest

/-- `Array.get_subspace` (src/cfdm/data/abstract/array.py), value level.
`none` plays the role of `Ellipsis`.  The `copy` flag does not affect the
value read at any cell, so it is ignored here; the aliasing consequences
of `copy` are embedded in the store-passing model `getSubspaceSt` below. -/
def get_subspace (a : MArr) (indices : Option (List AxIdx)) (copy : Bool) : MArr :=
  match indices with
  | none => a
  | some ix =>
    if (listAxes ix).length < 2 then applyIndex a ix
    else
      let p := takeLoop a ix (listAxes ix)
      if (listAxes ix).length < ix.length then applyIndex p.1 p.2 else p.1

/-! Small list helpers used throughout. -/

theorem getD_set_ne {α : Type} {l : List α} {i j : Nat} (h : i ≠ j) (a d : α) :
    (l.set i a).getD j d = l.getD j d := by
  simp [List.getD_eq_getElem?_getD, List.getElem?_set_ne h]

theorem getD_set_self {α : Type} {l : List α} {i : Nat} (h : i < l.length) (a d : α) :
    (l.set i a).getD i d = a := by
  simp [List.getD_eq_getElem?_getD, List.getElem?_set_self h]

theorem getD_range {n i : Nat} (h : i < n) : (List.range n).getD i 0 = i := by
  simp [List.getD_eq_getElem?_getD, List.getElem?_range h]

theorem getD_eq_getElem {α : Type} {l : List α} {i : Nat} (h : i < l.length) (d : α) :
    l.getD i d = l[i] := by
  simp [List.getD_eq_getElem?_getD, List.getElem?_eq_getElem h]

theorem axSel_slAll (d : Nat) : axSel d slAll = List.range d := by
  simp [axSel, slAll, sliceList]

theorem list_eq_of_getD {l1 l2 : List Nat} (hlen : l1.length = l2.length)
    (h : ∀ i, i < l1.length → l1.getD i 0 = l2.getD i 0) : l1 = l2 := by
  apply List.ext_getElem hlen
  intro i h1 h2
  have := h i h1
  rwa [getD_eq_getElem h1, getD_eq_getElem h2] at this

theorem getD_zipWith {α β γ : Type} (f : α → β → γ) (as : List α) (bs : List β)
    (i : Nat) (hi : i < as.length) (hj : i < bs.length) (da : α) (db : β) (dc : γ) :
    (List.zipWith f as bs).getD i dc = f (as.getD i da) (bs.getD i db) := by
  have hz : i < (List.zipWith f as bs).length := by
    rw [List.length_zipWith]
    omega
  rw [getD_eq_getElem hz, getD_eq_getElem hi, getD_eq_getElem hj, List.getElem_zipWith]

theorem listAxes_sublist (ix : List AxIdx) :
    List.Sublist (listAxes ix) (List.range ix.length) :=
  List.filter_sublist _

theorem mem_listAxes {ix : List AxIdx} {p : Nat} :
    p ∈ listAxes ix ↔ p < ix.length ∧ (ix.getD p slAll).isInts = true := by
  simp [listAxes, List.mem_filter, List.mem_range]

theorem nodup_listAxes (ix : List AxIdx) : (listAxes ix).Nodup :=
  List.Nodup.filter _ (List.nodup_range _)

theorem listAxes_length_le (ix : List AxIdx) : (listAxes ix).length ≤ ix.length := by
  have h := List.Sublist.length_le (listAxes_sublist ix)
  simpa using h

theorem listAxes_full {ix : List AxIdx} (h : ¬ (listAxes ix).length < ix.length) :
    ∀ p, p < ix.length → (ix.getD p slAll).isInts = true := by
  intro p hp
  have hlen : (listAxes ix).length = (List.range ix.length).length := by
    have := listAxes_length_le ix
    simp only [List.length_range]
    omega
  have heq : listAxes ix = List.range ix.length :=
    (listAxes_sublist ix).eq_of_length hlen
  have hpmem : p ∈ listAxes ix := by
    rw [heq]
    exact List.mem_range.mpr hp
  exact (mem_listAxes.mp hpmem).2

/-- A single step of the take loop leaves the combined independent-selection
semantics unchanged: taking the listed positions along one axis and then
indexing with that entry replaced by select-everything reads the same cells
as indexing with the original entry. -/
theorem take_step (a : MArr) (ix : List AxIdx) (p : Nat) (l : List Nat)
    (hlen : ix.length = a.shape.length)
    (hp : p < ix.length)
    (hl : ix.getD p slAll = .ints l) :
    (applyIndex (takeAx a l p) (ix.set p slAll)).shape = (applyIndex a ix).shape ∧
    (∀ idx, validIdx (applyIndex a ix).shape idx →
      (applyIndex (takeAx a l p) (ix.set p slAll)).val idx = (applyIndex a ix).val idx) := by
  have hpa : p < a.shape.length := hlen ▸ hp
  have hsp : ∀ q, q ≠ p → (a.shape.set p l.length).getD q 0 = a.shape.getD q 0 := by
    intro q hq
    exact getD_set_ne (fun h => hq h.symm) _ _
  have hip : ∀ q, q ≠ p → (ix.set p slAll).getD q slAll = ix.getD q slAll := by
    intro q hq
    exact getD_set_ne (fun h => hq h.symm) _ _
  have hshape_len : (applyIndex a ix).shape.length = ix.length := by
    simp only [applyIndex, List.length_zipWith]
    omega
  have hdimp : (applyIndex a ix).shape.getD p 0 = l.length := by
    simp only [applyIndex]
    rw [getD_zipWith _ _ _ p hpa hp 0 slAll 0, hl]
    simp [axSel]
  constructor
  · -- shapes agree
    apply list_eq_of_getD
    · simp only [applyIndex, takeAx, List.length_zipWith, List.length_set]
    · intro i h1
      have hi1 : i < a.shape.length := by
        simp only [applyIndex, takeAx, List.length_zipWith, List.length_set] at h1
        omega
      have hi2 : i < ix.length := by
        simp only [applyIndex, takeAx, List.length_zipWith, List.length_set] at h1
        omega
      simp only [applyIndex, takeAx]
      rw [getD_zipWith _ _ _ i (by simpa using hi1) (by simpa using hi2) 0 slAll 0,
        getD_zipWith _ _ _ i hi1 hi2 0 slAll 0]
      by_cases hip2 : i = p
      · subst hip2
        rw [getD_set_self hpa, getD_set_self hp, hl, axSel_slAll]
        simp [axSel]
      · rw [getD_set_ne (fun h => hip2 h.symm), getD_set_ne (fun h => hip2 h.symm)]
  · -- values agree on valid indices
    intro idx hvalid
    have hidxp : idx p < l.length := by
      have := hvalid p (by omega)
      rwa [hdimp] at this
    simp only [applyIndex, takeAx]
    congr 1
    funext q
    by_cases hq : q = p
    · subst hq
      have hupd : Function.update (selFun (a.shape.set q l.length) (ix.set q slAll) idx) q
          (l.getD (selFun (a.shape.set q l.length) (ix.set q slAll) idx q) 0) q
          = l.getD (selFun (a.shape.set q l.length) (ix.set q slAll) idx q) 0 :=
        Function.update_same _ _ _
      rw [hupd]
      have hsel : selFun (a.shape.set q l.length) (ix.set q slAll) idx q = idx q := by
        simp only [selFun]
        rw [getD_set_self hpa, getD_set_self hp, axSel_slAll, getD_range hidxp]
      rw [hsel]
      simp only [selFun]
      rw [hl]
      simp [axSel]
    · have hupd : Function.update (selFun (a.shape.set p l.length) (ix.set p slAll) idx) p
          (l.getD (selFun (a.shape.set p l.length) (ix.set p slAll) idx p) 0) q
          = selFun (a.shape.set p l.length) (ix.set p slAll) idx q :=
        Function.update_noteq hq _ _
      rw [hupd]
      simp only [selFun]
      rw [hsp q hq, hip q hq]

/-- `takeAx` preserves properness of arrays. -/
theorem takeAx_proper {a : MArr} (hP : a.Proper) {l : List Nat} {axis : Nat}
    (haxis : axis < a.shape.length) : (takeAx a l axis).Proper := by
  intro f g h
  simp only [takeAx]
  apply hP
  intro i hi
  simp only [takeAx, List.length_set] at h
  by_cases hiax : i = axis
  · subst hiax
    rw [Function.update_same, Function.update_same, h i hi]
  · rw [Function.update_noteq hiax, Function.update_noteq hiax]
    exact h i hi

/-- Invariant of the take loop of `Array.get_subspace`: each iteration
preserves the combined independent-selection reading of the current
(array, indices) pair, turns the processed entries into select-everything
and leaves the other entries untouched. -/
theorem takeLoop_inv : ∀ (A : List Nat) (a : MArr) (ix : List AxIdx),
    a.Proper → ix.length = a.shape.length →
    (∀ p ∈ A, p < ix.length ∧ (ix.getD p slAll).isInts = true) →
    A.Nodup →
    (takeLoop a ix A).1.Proper ∧
    (takeLoop a ix A).2.length = ix.length ∧
    (takeLoop a ix A).1.shape.length = a.shape.length ∧
    (applyIndex (takeLoop a ix A).1 (takeLoop a ix A).2).shape = (applyIndex a ix).shape ∧
    (∀ idx, validIdx (applyIndex a ix).shape idx →
       (applyIndex (takeLoop a ix A).1 (takeLoop a ix A).2).val idx = (applyIndex a ix).val idx) ∧
    (∀ p, p ∉ A → (takeLoop a ix A).2.getD p slAll = ix.getD p slAll) ∧
    (∀ p ∈ A, (takeLoop a ix A).2.getD p slAll = slAll) := by
  intro A
  induction A with
  | nil =>
    intro a ix hP hlen _ _
    refine ⟨hP, rfl, rfl, rfl, fun idx _ => rfl, fun p _ => rfl, fun p hp => absurd hp (by simp)⟩
  | cons axis rest IH =>
    intro a ix hP hlen hA hnd
    obtain ⟨haxlt, haxints⟩ := hA axis (by simp)
    obtain ⟨l, hl⟩ : ∃ l, ix.getD axis slAll = .ints l := by
      cases h : ix.getD axis slAll with
      | sl s t st => rw [h] at haxints; simp [AxIdx.isInts] at haxints
      | ints l => exact ⟨l, rfl⟩
    have hints_at : intsAt ix axis = l := by
      unfold intsAt
      rw [hl]
    have haxa : axis < a.shape.length := hlen ▸ haxlt
    have hstep := take_step a ix axis l hlen haxlt hl
    have hP2 : (takeAx a l axis).Proper := takeAx_proper hP haxa
    have hlen2 : (ix.set axis slAll).length = (takeAx a l axis).shape.length := by
      simp [takeAx, hlen]
    have hrest : ∀ p ∈ rest, p < (ix.set axis slAll).length ∧
        ((ix.set axis slAll).getD p slAll).isInts = true := by
      intro p hp
      have hpax : p ≠ axis := by
        intro h
        subst h
        exact (List.nodup_cons.mp hnd).1 hp
      obtain ⟨h1, h2⟩ := hA p (by simp [hp])
      exact ⟨by simpa using h1, by rwa [getD_set_ne (fun h => hpax h.symm)]⟩
    have hnd2 : rest.Nodup := (List.nodup_cons.mp hnd).2
    have IH2 := IH (takeAx a l axis) (ix.set axis slAll) hP2 hlen2 hrest hnd2
    obtain ⟨iP, ilen, islen, ishape, ival, iout, iin⟩ := IH2
    have hT : takeLoop a ix (axis :: rest)
        = takeLoop (takeAx a l axis) (ix.set axis slAll) rest := by
      simp [takeLoop, hints_at]
    rw [hT]
    refine ⟨iP, by simpa using ilen, by simpa [takeAx] using islen, ?_, ?_, ?_, ?_⟩
    · rw [ishape, hstep.1]
    · intro idx hvalid
      have hvalid2 : validIdx (applyIndex (takeAx a l axis) (ix.set axis slAll)).shape idx := by
        rwa [hstep.1]
      rw [ival idx hvalid2, hstep.2 idx hvalid]
    · intro p hp
      have hpax : p ≠ axis := by
        intro h
        exact hp (h ▸ List.mem_cons_self _ _)
      have hprest : p ∉ rest := fun h => hp (List.mem_cons_of_mem _ h)
      rw [iout p hprest, getD_set_ne (fun h => hpax h.symm)]
    · intro p hp
      rcases List.mem_cons.mp hp with h | h
      · subst h
        have : p ∉ rest := (List.nodup_cons.mp hnd).1
        rw [iout p this, getD_set_self haxlt]
      · exact iin p h

/-- Applying an index whose entries are all select-everything reads the
array back unchanged (on valid indices). -/
theorem applyIndex_all_slAll (a : MArr) (hP : a.Proper) (ix : List AxIdx)
    (hlen : ix.length = a.shape.length)
    (hall : ∀ p, p < ix.length → ix.getD p slAll = slAll) :
    (applyIndex a ix).shape = a.shape ∧
    (∀ idx, validIdx a.shape idx → (applyIndex a ix).val idx = a.val idx) := by
  constructor
  · apply list_eq_of_getD
    · simp only [applyIndex, List.length_zipWith]
      omega
    · intro i h1
      have hi2 : i < ix.length := by
        simp only [applyIndex, List.length_zipWith] at h1
        omega
      have hi1 : i < a.shape.length := by omega
      simp only [applyIndex]
      rw [getD_zipWith _ _ _ i hi1 hi2 0 slAll 0, hall i hi2, axSel_slAll]
      simp
  · intro idx hvalid
    simp only [applyIndex]
    apply hP
    intro i hi
    simp only [selFun]
    have hiix : i < ix.length := by omega
    rw [hall i hiix, axSel_slAll, getD_range (hvalid i hi)]

/-- C1: when at least two axes of a canonical index carry integer-sequence
entries, `Array.get_subspace` selects positions independently per axis (a
Cartesian block): it reads exactly the cells of the one-shot combined
independent selection `applyIndex`, and the result has size `len(entry)`
along every integer-sequence axis. -/
theorem get_subspace_independent_axes (a : MArr) (ix : List AxIdx) (c : Bool)
    (hP : a.Proper) (hlen : ix.length = a.shape.length)
    (h2 : 2 ≤ (listAxes ix).length) :
    (get_subspace a (some ix) c).shape = (applyIndex a ix).shape ∧
    (∀ idx, validIdx (applyIndex a ix).shape idx →
       (get_subspace a (some ix) c).val idx = (applyIndex a ix).val idx) ∧
    (∀ p l, p < ix.length → ix.getD p slAll = .ints l →
       (get_subspace a (some ix) c).shape.getD p 0 = l.length) := by
  have hA : ∀ p ∈ listAxes ix, p < ix.length ∧ (ix.getD p slAll).isInts = true := by
    intro p hp
    exact mem_listAxes.mp hp
  have inv := takeLoop_inv (listAxes ix) a ix hP hlen hA (nodup_listAxes ix)
  obtain ⟨iP, ilen, islen, ishape, ival, iout, iin⟩ := inv
  have hnot2 : ¬ (listAxes ix).length < 2 := by omega
  have hmain : (get_subspace a (some ix) c).shape = (applyIndex a ix).shape ∧
      (∀ idx, validIdx (applyIndex a ix).shape idx →
        (get_subspace a (some ix) c).val idx = (applyIndex a ix).val idx) := by
    by_cases hrem : (listAxes ix).length < ix.length
    · have hg : get_subspace a (some ix) c
          = applyIndex (takeLoop a ix (listAxes ix)).1 (takeLoop a ix (listAxes ix)).2 := by
        simp [get_subspace, hnot2, hrem]
      rw [hg]
      exact ⟨ishape, ival⟩
    · have hg : get_subspace a (some ix) c = (takeLoop a ix (listAxes ix)).1 := by
        simp [get_subspace, hnot2, hrem]
      have hallints := listAxes_full hrem
      have hall : ∀ p, p < (takeLoop a ix (listAxes ix)).2.length →
          (takeLoop a ix (listAxes ix)).2.getD p slAll = slAll := by
        intro p hp
        have hpix : p < ix.length := by omega
        exact iin p (mem_listAxes.mpr ⟨hpix, hallints p hpix⟩)
      have hlen3 : (takeLoop a ix (listAxes ix)).2.length
          = (takeLoop a ix (listAxes ix)).1.shape.length := by omega
      have hid := applyIndex_all_slAll (takeLoop a ix (listAxes ix)).1 iP
        (takeLoop a ix (listAxes ix)).2 hlen3 hall
      rw [hg]
      constructor
      · rw [← hid.1, ishape]
      · intro idx hvalid
        have hshape_eq : (takeLoop a ix (listAxes ix)).1.shape = (applyIndex a ix).shape := by
          rw [← hid.1, ishape]
        have hvalid2 : validIdx (takeLoop a ix (listAxes ix)).1.shape idx := by
          rwa [hshape_eq]
        rw [← hid.2 idx hvalid2, ival idx hvalid]
  refine ⟨hmain.1, hmain.2, ?_⟩
  intro p l hp hl
  rw [hmain.1]
  have hpa : p < a.shape.length := by omega
  simp only [applyIndex]
  rw [getD_zipWith _ _ _ p hpa hp 0 slAll 0, hl]
  simp [axSel]

/-- The 2×3 example array `[[1,2,3],[4,5,6]]` of the specification. -/
def exRows : List (List Int) := [[1, 2, 3], [4, 5, 6]]

/-- The example array as an `MArr`. -/
def exArr : MArr :=
  { shape := [2, 3], val := fun f => some ((exRows.getD (f 0) []).getD (f 1) 0) }

/-- Axis-0 indices `[1,0]`, axis-1 indices `[2,0]`. -/
def exIx : List AxIdx := [.ints [1, 0], .ints [2, 0]]

theorem exArr_proper : exArr.Proper := by
  intro f g h
  simp only [exArr]
  rw [h 0 (by decide), h 1 (by decide)]

/-- C1 witness: at the 2×3 source `[[1,2,3],[4,5,6]]` with axis-0 indices
`[1,0]` and axis-1 indices `[2,0]`, the hypotheses of
`get_subspace_independent_axes` hold and the extraction yields the
independent Cartesian block `[[6,4],[3,1]]` of shape 2×2, not the
broadcast diagonal `[6,1]`. -/
theorem get_subspace_independent_axes_witness :
    (exIx.length = exArr.shape.length ∧ 2 ≤ (listAxes exIx).length) ∧
    ((get_subspace exArr (some exIx) true).shape = (applyIndex exArr exIx).shape ∧
     (∀ idx, validIdx (applyIndex exArr exIx).shape idx →
        (get_subspace exArr (some exIx) true).val idx = (applyIndex exArr exIx).val idx) ∧
     (∀ p l, p < exIx.length → exIx.getD p slAll = .ints l →
        (get_subspace exArr (some exIx) true).shape.getD p 0 = l.length)) ∧
    (get_subspace exArr (some exIx) true).shape = [2, 2] ∧
    (get_subspace exArr (some exIx) true).val (fun _ => 0) = some 6 ∧
    (get_subspace exArr (some exIx) true).val (fun i => if i = 0 then 0 else 1) = some 4 ∧
    (get_subspace exArr (some exIx) true).val (fun i => if i = 0 then 1 else 0) = some 3 ∧
    (get_subspace exArr (some exIx) true).val (fun _ => 1) = some 1 ∧
    (get_subspace exArr (some exIx) true).shape ≠ [2] :=
  ⟨⟨rfl, by decide⟩,
   get_subspace_independent_axes exArr exIx true exArr_proper rfl (by decide),
   by decide, by decide, by decide, by decide, by decide, by decide⟩

/-! ## CompressedArray (src/cfdm/data/filearray.py)

`CompressedArray.__getitem__` first materialises a fully masked buffer of
the uncompressed shape (`numpy.ma.masked_all`), then fills it according to
the first `(type, parameters)` entry of the compression mapping, and
finally either returns the buffer (for `Ellipsis`) or delegates to the
subspace extraction.  The gathered branch of the source refers to the
locals `shape`, `r_data` and `izip`; these resolve to `self.shape`, the
compressed payload `array` and `itertools.izip` (i.e. `zip`), and are
embedded accordingly. -/

/-- `numpy.ma.masked_all(shape)`: a buffer of the given shape with every
position masked. -/
def maskedAll (shape : List Nat) : MArr :=
  { shape := shape, val := fun _ => none }

/-- The parameter dictionary stored under a compression-type key of the
`compression` mapping.  The source reads string keys out of a dict; here
every key of every variant is a field, mirroring the dict. -/
structure UParams where
  axis : Nat
  indices : List Nat
  instance_axis : Nat
  instance_index : Nat
  i_element_axis : Nat
  i_element_index : Nat
  i_element_indices : List Nat
  c_element_axis : Nat
  c_element_start : Nat
  c_element_stop : Nat

/-- A parameter dictionary with no interesting entries. -/
def UParams.zero : UParams := ⟨0, [], 0, 0, 0, 0, [], 0, 0, 0⟩

/-- The list `zzz` of the gathered branch: for `i` in `range(1, n)`, the
product of the uncompressed sizes of the compressed axes from position `i`
on (`csizes` is the list of those sizes). -/
def zzzOf (csizes : List Nat) : List Nat :=
  (List.range' 1 (csizes.length - 1)).map (fun i => (csizes.drop i).prod)

/-- The inner decode loop of the gathered branch: for each `z` in `zzz`,
if `b >= z` then `(a, b) = divmod(b, z)` and the digit is `a`, else the
digit stays `0`; the running remainder is returned alongside. -/
def decodeLoop : List Nat → Nat → List Nat × Nat
| [], b => ([], b)
| z :: rest, b =>
  if z ≤ b then
    ((b / z) :: (decodeLoop rest (b % z)).1, (decodeLoop rest (b % z)).2)
  else
    (0 :: (decodeLoop rest b).1, (decodeLoop rest b).2)

/-- The full decoded coordinate list `xxx` of the gathered branch.  `xxx`
starts as `[0] * n`; the statement `xxx[-1] = b` sits inside the loop over
`zzz`, so when `zzz` is empty (exactly one compressed axis) it never runs
and the decoded coordinates remain all zero. -/
def codeDecode (n : Nat) (zzz : List Nat) (b : Nat) : List Nat :=
  match zzz with
  | [] => List.replicate n 0
  | z :: rest => (decodeLoop (z :: rest) b).1 ++ [(decodeLoop (z :: rest) b).2]

/-- The components of a buffer index along the compressed axes
`sample_axis, ..., sample_axis + m - 1`. -/
def cdigits (sax m : Nat) (idx : Nat → Nat) : List Nat :=
  (List.range m).map (fun t => idx (sax + t))

/-- The payload index read for a buffer index whose compressed-axis block
is replaced by the single sample position `ii` (`r_indices` with
`r_indices[sample_axis] = ii`). -/
def gatherProj (sax m ii : Nat) (idx : Nat → Nat) : Nat → Nat :=
  fun k => if k < sax then idx k else if k = sax then ii else idx (k + m - 1)

/-- One iteration of the gathered loop:
`uarray[p_indices] = array[r_indices]` with the compressed axes of
`p_indices` fixed at the decoded coordinates `xxx`. -/
def gatherStep (pl : MArr) (sax m : Nat) (xxx : List Nat) (ii : Nat) (u : MArr) : MArr :=
  { shape := u.shape,
    val := fun idx =>
      if cdigits sax m idx = xxx then pl.val (gatherProj sax m ii idx) else u.val idx }

/-- The loop `for ii, b in enumerate(uncompression_indices)` of the
gathered branch. -/
def gatherLoop (pl : MArr) (sax m : Nat) (zzz : List Nat) : Nat → MArr → List Nat → MArr
| _, u, [] => u
| ii, u, b :: rest =>
  gatherLoop pl sax m zzz (ii + 1) (gatherStep pl sax m (codeDecode m zzz b) ii u) rest

/-- The number of compressed axes of the gathered branch: the length of
`range(sample_axis, ndim - (payload_ndim - sample_axis - 1))`. -/
def gatherM (shape plShape : List Nat) (sax : Nat) : Nat :=
  shape.length - (plShape.length - sax - 1) - sax

/-- The uncompressed sizes of the compressed axes
(`[shape[i] for i in compressed_axes]`). -/
def gatherSizes (shape : List Nat) (m sax : Nat) : List Nat :=
  (List.range m).map (fun t => shape.getD (sax + t) 0)

/-- The gathered reconstruction: compressed axes
`range(sample_axis, ndim - (payload_ndim - sample_axis - 1))`, their
uncompressed sizes, decode table `zzz`, then the enumerate loop over the
gather indices starting from the fully masked buffer. -/
def gatherRecon (shape : List Nat) (pl : MArr) (sax : Nat) (gidx : List Nat) : MArr :=
  gatherLoop pl sax (gatherM shape pl.shape sax)
    (zzzOf (gatherSizes shape (gatherM shape pl.shape sax) sax))
    0 (maskedAll shape) gidx

/-- The `DSG_contiguous` branch: a single instance row.  `p_indices` fixes
`instance_axis` at `instance_index` and `c_element_axis` at
`slice(0, stop - start)`; the assigned values come from the flat payload
slice `array[start:stop]` (the payload is read one-dimensional, as in the
CF ragged layout, and is broadcast along any remaining axes). -/
def dsgContiguousRecon (shape : List Nat) (pl : MArr)
    (iax iidx eax sstart sstop : Nat) : MArr :=
  { shape := shape,
    val := fun idx =>
      if idx iax = iidx ∧ idx eax < sstop - sstart then
        pl.val (fun k => if k = 0 then sstart + idx eax else 0)
      else none }

/-- The `DSG_indexed` branch: a single instance row gathered from the
payload rows listed in `i_element_indices`. -/
def dsgIndexedRecon (shape : List Nat) (pl : MArr)
    (iax iidx eax : Nat) (sidx : List Nat) : MArr :=
  { shape := shape,
    val := fun idx =>
      if idx iax = iidx ∧ idx eax < sidx.length then
        pl.val (fun k => if k = 0 then sidx.getD (idx eax) 0 else 0)
      else none }

/-- The `DSG_indexed_contiguous` branch: a single (instance, profile) row
filled from the payload slice `array[start:stop]`. -/
def dsgIndexedContiguousRecon (shape : List Nat) (pl : MArr)
    (iax iidx ieax ieidx ceax sstart sstop : Nat) : MArr :=
  { shape := shape,
    val := fun idx =>
      if idx iax = iidx ∧ idx ieax = ieidx ∧ idx ceax < sstop - sstart then
        pl.val (fun k => if k = 0 then sstart + idx ceax else 0)
      else none }

/-- Failure modes of `CompressedArray.__getitem__`: an empty compression
mapping (`items()[0]` on an empty dict) and an unrecognised compression
type (the `raise ValueError("Unkown compression type: ...")` branch). -/
inductive CompErr where
| noCompression
| unknownCompressionType (ctype : String)

/-- `CompressedArray`: the compressed payload, the compression mapping
(an association list standing for the dict, read through `items()[0]`),
and the uncompressed shape with its derived `ndim` and `size`. -/
structure CompArr where
  array : MArr
  compression : List (String × UParams)
  shape : List Nat
  ndim : Nat
  size : Nat

/-- `CompressedArray.__init__`: stores the payload, the mapping and the
shape, and derives `ndim = len(shape)` and `size = product(shape)`. -/
def CompArr.make (array : MArr) (shape : List Nat)
    (compression : List (String × UParams)) : CompArr :=
  ⟨array, compression, shape, shape.length, shape.prod⟩

/-- The reconstruction part of `CompressedArray.__getitem__`: dispatch on
the compression type of the first mapping entry and build the dense
uncompressed buffer. -/
def reconstructU (ca : CompArr) : Except CompErr MArr :=
  match ca.compression with
  | [] => .error .noCompression
  | (ctype, u) :: _ =>
    if ctype = "gathered" then
      .ok (gatherRecon ca.shape ca.array u.axis u.indices)
    else if ctype = "DSG_contiguous" then
      .ok (dsgContiguousRecon ca.shape ca.array u.instance_axis u.instance_index
        u.c_element_axis u.c_element_start u.c_element_stop)
    else if ctype = "DSG_indexed" then
      .ok (dsgIndexedRecon ca.shape ca.array u.instance_axis u.instance_index
        u.i_element_axis u.i_element_indices)
    else if ctype = "DSG_indexed_contiguous" then
      .ok (dsgIndexedContiguousRecon ca.shape ca.array u.instance_axis u.instance_index
        u.i_element_axis u.i_element_index u.c_element_axis u.c_element_start
        u.c_element_stop)
    else .error (.unknownCompressionType ctype)

/-- `CompressedArray.__getitem__`: reconstruct, then return the whole
buffer for `Ellipsis` or extract the requested subspace (the source
delegates to the module-level `get_subspace` of `cfdm.functions`, which
implements the same independent per-axis algorithm embedded above as
`get_subspace`). -/
def compGetItem (ca : CompArr) (indices : Option (List AxIdx)) : Except CompErr MArr :=
  (reconstructU ca).map (fun uarray =>
    match indices with
    | none => uarray
    | some ix => get_subspace uarray (some ix) true)

/-- Read the cell at `idx` of a read result: `some v` when the read
succeeded (with `v` the possibly masked cell), `none` when it failed. -/
def readResult (r : Except CompErr MArr) (idx : Nat → Nat) : Option (Option Int) :=
  match r with
  | .ok u => some (u.val idx)
  | .error _ => none

/-- C4: the all-axes wildcard (`Ellipsis`) returns the full buffer
unsliced: `Array.get_subspace` hands back the array unchanged, and
`CompressedArray.__getitem__` hands back exactly the reconstructed
uncompressed buffer. -/
theorem wildcard_returns_unsliced :
    (∀ (a : MArr) (c : Bool), get_subspace a none c = a) ∧
    (∀ ca : CompArr, compGetItem ca none = reconstructU ca) := by
  constructor
  · intro a c
    rfl
  · intro ca
    unfold compGetItem
    cases h : reconstructU ca with
    | error e => rfl
    | ok u => rfl

/-- C10: a read of a `CompressedArray` consults only the first
`(type, parameters)` entry of the compression mapping
(`self.compression.items()[0]`); any further entries never influence the
result. -/
theorem comp_first_entry_only (ca : CompArr) (e : String × UParams)
    (rest : List (String × UParams)) (indices : Option (List AxIdx)) :
    compGetItem { ca with compression := e :: rest } indices
      = compGetItem { ca with compression := [e] } indices := by
  obtain ⟨ctype, u⟩ := e
  rfl

/-- The four compression types recognised by the dispatch of
`CompressedArray.__getitem__`. -/
def recognisedCompressionTypes : List String :=
  ["gathered", "DSG_contiguous", "DSG_indexed", "DSG_indexed_contiguous"]

/-- C8: a read of a `CompressedArray` whose first descriptor entry has an
unrecognised type fails with the unknown-compression-type error, and for
the four recognised types that failure branch is unreachable. -/
theorem comp_unknown_dispatch (ca : CompArr) (indices : Option (List AxIdx))
    (ctype : String) (u : UParams) (rest : List (String × UParams))
    (hc : ca.compression = (ctype, u) :: rest) :
    (ctype ∉ recognisedCompressionTypes →
       compGetItem ca indices = .error (.unknownCompressionType ctype)) ∧
    (ctype ∈ recognisedCompressionTypes →
       ∀ s, compGetItem ca indices ≠ .error (.unknownCompressionType s)) := by
  constructor
  · intro hmem
    simp only [recognisedCompressionTypes, List.mem_cons, List.not_mem_nil, or_false,
      not_or] at hmem
    obtain ⟨h1, h2, h3, h4⟩ := hmem
    unfold compGetItem reconstructU
    rw [hc]
    simp [h1, h2, h3, h4, Except.map]
  · intro hmem s
    simp only [recognisedCompressionTypes, List.mem_cons, List.not_mem_nil, or_false] at hmem
    unfold compGetItem reconstructU
    rw [hc]
    rcases hmem with h | h | h | h <;> subst h <;> cases indices <;> simp [Except.map]

/-- C2 (amended): the `DSG_contiguous` branch reconstructs a single
instance: reading the whole array yields a buffer of the uncompressed
shape in which the positions of row `instance_index` along the element
axis below `stop - start` hold the payload values `start + e`, and every
other position — the rest of that row and the whole of every other
instance's row — is masked. -/
theorem ragged_contiguous_single_instance (ca : CompArr) (u : UParams)
    (rest : List (String × UParams))
    (hc : ca.compression = ("DSG_contiguous", u) :: rest) :
    ∃ buf, compGetItem ca none = .ok buf ∧ buf.shape = ca.shape ∧
      ∀ idx : Nat → Nat,
        (idx u.instance_axis = u.instance_index ∧
            idx u.c_element_axis < u.c_element_stop - u.c_element_start →
          buf.val idx
            = ca.array.val (fun k => if k = 0 then u.c_element_start + idx u.c_element_axis else 0)) ∧
        (¬ (idx u.instance_axis = u.instance_index ∧
            idx u.c_element_axis < u.c_element_stop - u.c_element_start) →
          buf.val idx = none) := by
  refine ⟨dsgContiguousRecon ca.shape ca.array u.instance_axis u.instance_index
    u.c_element_axis u.c_element_start u.c_element_stop, ?_, rfl, ?_⟩
  · unfold compGetItem reconstructU
    rw [hc]
    rfl
  · intro idx
    constructor
    · intro h
      simp [dsgContiguousRecon, h]
    · intro h
      simp [dsgContiguousRecon, h]

/-- The flat five-element ragged payload `[10,20,30,40,50]`. -/
def rcPayload : MArr :=
  { shape := [5], val := fun f => some (([10, 20, 30, 40, 50] : List Int).getD (f 0) 0) }

/-- A `DSG_contiguous` descriptor for instance 0 with element span
`[0, 2)` along element axis 1 (fields in declaration order: `axis`,
`indices`, `instance_axis`, `instance_index`, `i_element_axis`,
`i_element_index`, `i_element_indices`, `c_element_axis`,
`c_element_start`, `c_element_stop`). -/
def rcParams : UParams := ⟨0, [], 0, 0, 0, 0, [], 1, 0, 2⟩

/-- A ragged-contiguous compressed array of logical shape 2×3 over the
flat payload. -/
def rcArr : CompArr := CompArr.make rcPayload [2, 3] [("DSG_contiguous", rcParams)]

/-- C2 counterexample: the claim asserts a read reconstructs all
instances at once, so with payload `[10,20,30,40,50]` and the spans
`[(0,2),(2,5)]` instance 1's row would read `[30,40,50]`.  The code's
descriptor carries a single `(instance_index, span)` pair, and a full
read of the concrete array above fills instance 0's row only and leaves
instance 1's row entirely masked — not `[30,40,50]`. -/
theorem ragged_contiguous_counterexample :
    readResult (compGetItem rcArr none) (fun _ => 0) = some (some 10) ∧
    readResult (compGetItem rcArr none) (fun i => if i = 0 then 0 else 1) = some (some 20) ∧
    readResult (compGetItem rcArr none) (fun i => if i = 0 then 0 else 2) = some none ∧
    readResult (compGetItem rcArr none) (fun i => if i = 0 then 1 else 0) = some none ∧
    readResult (compGetItem rcArr none) (fun _ => 1) = some none ∧
    readResult (compGetItem rcArr none) (fun i => if i = 0 then 1 else 2) = some none ∧
    ¬ (readResult (compGetItem rcArr none) (fun i => if i = 0 then 1 else 0) = some (some 30) ∧
       readResult (compGetItem rcArr none) (fun _ => 1) = some (some 40) ∧
       readResult (compGetItem rcArr none) (fun i => if i = 0 then 1 else 2) = some (some 50)) := by
  refine ⟨by decide, by decide, by decide, by decide, by decide, by decide, ?_⟩
  intro h
  exact absurd h.1 (by decide)

/-- C2 witness: the amended single-instance statement instantiated at the
concrete 2×3 ragged-contiguous array: instance 0's row reads
`[10, 20, masked]` and instance 1's row is fully masked. -/
theorem ragged_contiguous_single_instance_witness :
    rcArr.compression = ("DSG_contiguous", rcParams) :: [] ∧
    (∃ buf, compGetItem rcArr none = .ok buf ∧ buf.shape = rcArr.shape ∧
      ∀ idx : Nat → Nat,
        (idx rcParams.instance_axis = rcParams.instance_index ∧
            idx rcParams.c_element_axis < rcParams.c_element_stop - rcParams.c_element_start →
          buf.val idx
            = rcArr.array.val
                (fun k => if k = 0 then rcParams.c_element_start + idx rcParams.c_element_axis else 0)) ∧
        (¬ (idx rcParams.instance_axis = rcParams.instance_index ∧
            idx rcParams.c_element_axis < rcParams.c_element_stop - rcParams.c_element_start) →
          buf.val idx = none)) :=
  ⟨rfl, ragged_contiguous_single_instance rcArr rcParams [] rfl⟩

/-- A compressed array with an unrecognised compression type. -/
def unkArr : CompArr := CompArr.make (maskedAll [1]) [1] [("zipped", UParams.zero)]

/-- A compressed array with a recognised compression type. -/
def okCompArr : CompArr := CompArr.make (maskedAll [2]) [2, 2] [("DSG_indexed", UParams.zero)]

/-- C8 witness: the unrecognised type `"zipped"` makes every read fail
with the unknown-compression-type error, while the recognised
`"DSG_indexed"` never reaches that branch. -/
theorem comp_unknown_dispatch_witness :
    unkArr.compression = ("zipped", UParams.zero) :: [] ∧
    "zipped" ∉ recognisedCompressionTypes ∧
    compGetItem unkArr none = .error (.unknownCompressionType "zipped") ∧
    "DSG_indexed" ∈ recognisedCompressionTypes ∧
    compGetItem okCompArr none ≠ .error (.unknownCompressionType "DSG_indexed") :=
  ⟨rfl, by decide,
   (comp_unknown_dispatch unkArr none "zipped" UParams.zero [] rfl).1 (by decide),
   by decide,
   (comp_unknown_dispatch okCompArr none "DSG_indexed" UParams.zero [] rfl).2
     (by decide) "DSG_indexed"⟩

/-! ## Mixed-radix decoding for the gathered reconstruction -/

/-- The decode the specification describes: successive
division/remainder by the product of the sizes of the axes to the right,
most-significant axis first. -/
def mixedRadix : List Nat → Nat → List Nat
| [], _ => []
| _ :: rest, b => (b / rest.prod) :: mixedRadix rest (b % rest.prod)

/-- Recompose a digit list against a size list (row-major flattening). -/
def mixedRadixVal : List Nat → List Nat → Nat
| [], _ => 0
| _ :: _, [] => 0
| _ :: rest, d :: ds => d * rest.prod + mixedRadixVal rest ds

theorem mixedRadixVal_mixedRadix (sizes : List Nat) (b : Nat) (h : b < sizes.prod) :
    mixedRadixVal sizes (mixedRadix sizes b) = b := by
  induction sizes generalizing b with
  | nil =>
    simp only [List.prod_nil] at h
    interval_cases b
    rfl
  | cons s rest IH =>
    have hpos : 0 < rest.prod := by
      rcases Nat.eq_zero_or_pos rest.prod with h0 | h0
      · rw [List.prod_cons, h0, Nat.mul_zero] at h
        omega
      · exact h0
    have hmod : b % rest.prod < rest.prod := Nat.mod_lt _ hpos
    simp only [mixedRadix, mixedRadixVal]
    rw [IH _ hmod, Nat.mul_comm]
    exact Nat.div_add_mod b rest.prod

theorem mixedRadix_inj (sizes : List Nat) (b1 b2 : Nat)
    (h1 : b1 < sizes.prod) (h2 : b2 < sizes.prod)
    (he : mixedRadix sizes b1 = mixedRadix sizes b2) : b1 = b2 := by
  rw [← mixedRadixVal_mixedRadix sizes b1 h1, ← mixedRadixVal_mixedRadix sizes b2 h2, he]

/-- A recursive presentation of the decode table `zzz`. -/
def zzzRec : List Nat → List Nat
| [] => []
| _ :: rest => if rest = [] then [] else rest.prod :: zzzRec rest

theorem zzzOf_eq_zzzRec (csizes : List Nat) : zzzOf csizes = zzzRec csizes := by
  induction csizes with
  | nil => rfl
  | cons s rest IH =>
    cases rest with
    | nil => rfl
    | cons t rest2 =>
      have h1 : zzzOf (s :: t :: rest2)
          = ((s :: t :: rest2).drop 1).prod
              :: (List.range' 2 rest2.length).map (fun i => ((s :: t :: rest2).drop i).prod) := by
        simp only [zzzOf, List.length_cons, Nat.add_sub_cancel, List.range'_succ, List.map_cons]
      have h2 : (List.range' 2 rest2.length).map (fun i => ((s :: t :: rest2).drop i).prod)
          = (List.range' 1 rest2.length).map (fun i => ((t :: rest2).drop i).prod) := by
        rw [List.range'_eq_map_range, List.range'_eq_map_range, List.map_map, List.map_map]
        apply List.map_congr_left
        intro j hj
        simp only [Function.comp]
        rw [show 2 + j = (1 + j) + 1 by omega, List.drop_succ_cons]
      have h3 : zzzOf (t :: rest2)
          = (List.range' 1 rest2.length).map (fun i => ((t :: rest2).drop i).prod) := by
        simp only [zzzOf, List.length_cons, Nat.add_sub_cancel]
      rw [h1, h2, ← h3, IH]
      simp [zzzRec]

theorem decodeLoop_divmod (z : Nat) (zs : List Nat) (b : Nat) :
    decodeLoop (z :: zs) b
      = ((b / z) :: (decodeLoop zs (b % z)).1, (decodeLoop zs (b % z)).2) := by
  by_cases h : z ≤ b
  · simp [decodeLoop, h]
  · have h1 : b / z = 0 := Nat.div_eq_of_lt (by omega)
    have h2 : b % z = b := Nat.mod_eq_of_lt (by omega)
    simp [decodeLoop, h, h1, h2]

theorem codeDecode_cons (n z : Nat) (zs : List Nat) (b : Nat) :
    codeDecode n (z :: zs) b
      = (decodeLoop (z :: zs) b).1 ++ [(decodeLoop (z :: zs) b).2] := rfl

/-- The decode of the gathered branch agrees with the specification's
mixed-radix decomposition whenever at least two axes are collapsed. -/
theorem codeDecode_eq_mixedRadix : ∀ (csizes : List Nat) (b : Nat), 2 ≤ csizes.length →
    codeDecode csizes.length (zzzRec csizes) b = mixedRadix csizes b := by
  intro csizes
  induction csizes with
  | nil => intro b h; simp at h
  | cons s rest IH =>
    intro b h
    cases rest with
    | nil => simp at h
    | cons t rest2 =>
      have hzz : zzzRec (s :: t :: rest2) = (t :: rest2).prod :: zzzRec (t :: rest2) := by
        simp [zzzRec]
      rw [hzz, codeDecode_cons, decodeLoop_divmod]
      simp only [mixedRadix, List.cons_append]
      congr 1
      cases rest2 with
      | nil =>
        simp [zzzRec, decodeLoop, mixedRadix]
      | cons w rest3 =>
        have hlen2 : 2 ≤ (t :: w :: rest3).length := by
          simp only [List.length_cons]
          omega
        have hznz : zzzRec (t :: w :: rest3) = (w :: rest3).prod :: zzzRec (w :: rest3) := by
          simp [zzzRec]
        have IH2 := IH (b % (t :: w :: rest3).prod) hlen2
        rw [hznz, codeDecode_cons] at IH2
        rw [hznz]
        exact IH2

theorem gatherLoop_shape (pl : MArr) (sax m : Nat) (zzz : List Nat) :
    ∀ (gs : List Nat) (ii0 : Nat) (u : MArr),
      (gatherLoop pl sax m zzz ii0 u gs).shape = u.shape := by
  intro gs
  induction gs with
  | nil => intro ii0 u; rfl
  | cons g gs IH =>
    intro ii0 u
    simp only [gatherLoop]
    rw [IH]
    rfl

/-- A buffer position whose compressed-axis coordinates are hit by no
gather index stays exactly as it started (in particular masked). -/
theorem gatherLoop_miss (pl : MArr) (sax m : Nat) (zzz : List Nat) (idx : Nat → Nat) :
    ∀ (gs : List Nat) (ii0 : Nat) (u : MArr),
      (∀ b ∈ gs, codeDecode m zzz b ≠ cdigits sax m idx) →
      (gatherLoop pl sax m zzz ii0 u gs).val idx = u.val idx := by
  intro gs
  induction gs with
  | nil => intro ii0 u _; rfl
  | cons g gs IH =>
    intro ii0 u h
    simp only [gatherLoop]
    rw [IH _ _ (fun b hb => h b (List.mem_cons_of_mem _ hb))]
    simp only [gatherStep]
    rw [if_neg]
    intro hEq
    exact h g (List.mem_cons_self _ _) hEq.symm

/-- A buffer position whose compressed-axis coordinates are hit by the
`i`-th gather index (and no other) reads the payload at sample position
`ii0 + i`. -/
theorem gatherLoop_hit (pl : MArr) (sax m : Nat) (zzz : List Nat) (idx : Nat → Nat) :
    ∀ (gs : List Nat) (i ii0 b : Nat) (u : MArr),
      gs[i]? = some b →
      codeDecode m zzz b = cdigits sax m idx →
      (∀ j b2, j ≠ i → gs[j]? = some b2 → codeDecode m zzz b2 ≠ cdigits sax m idx) →
      (gatherLoop pl sax m zzz ii0 u gs).val idx
        = pl.val (gatherProj sax m (ii0 + i) idx) := by
  intro gs
  induction gs with
  | nil =>
    intro i ii0 b u hget
    simp at hget
  | cons g gs IH =>
    intro i ii0 b u hget hdec hothers
    cases i with
    | zero =>
      have hgb : g = b := by simpa using hget
      subst hgb
      simp only [gatherLoop]
      rw [gatherLoop_miss]
      · simp only [gatherStep]
        rw [if_pos hdec.symm]
        simp
      · intro b2 hb2
        obtain ⟨j, hjget⟩ := List.mem_iff_getElem?.mp hb2
        exact hothers (j + 1) b2 (by omega) (by simpa using hjget)
    | succ j =>
      have hget2 : gs[j]? = some b := by simpa using hget
      simp only [gatherLoop]
      have hoth2 : ∀ j2 b2, j2 ≠ j → gs[j2]? = some b2 →
          codeDecode m zzz b2 ≠ cdigits sax m idx := by
        intro j2 b2 hne hj2
        exact hothers (j2 + 1) b2 (by omega) (by simpa using hj2)
      rw [IH j (ii0 + 1) b _ hget2 hdec hoth2]
      have harith : ii0 + 1 + j = ii0 + (j + 1) := by omega
      rw [harith]

theorem gatherSizes_length (shape : List Nat) (m sax : Nat) :
    (gatherSizes shape m sax).length = m := by
  simp [gatherSizes]

/-- C3 (amended): for a gathered compressed array collapsing at least two
logical axes, with distinct in-range gather indices, a full read places
the payload's sample `i` at the coordinates obtained from
`gather_indices[i]` by mixed-radix decomposition over the collapsed axes'
sizes, and every buffer position hit by no gather index stays masked. -/
theorem gathered_mixed_radix (ca : CompArr) (u : UParams) (rest : List (String × UParams))
    (hc : ca.compression = ("gathered", u) :: rest)
    (hm : 2 ≤ gatherM ca.shape ca.array.shape u.axis)
    (hnodup : u.indices.Nodup)
    (hrange : ∀ b ∈ u.indices,
      b < (gatherSizes ca.shape (gatherM ca.shape ca.array.shape u.axis) u.axis).prod) :
    ∃ buf, compGetItem ca none = .ok buf ∧ buf.shape = ca.shape ∧
      ∀ idx : Nat → Nat,
        ((∀ b ∈ u.indices,
            mixedRadix (gatherSizes ca.shape (gatherM ca.shape ca.array.shape u.axis) u.axis) b
              ≠ cdigits u.axis (gatherM ca.shape ca.array.shape u.axis) idx) →
          buf.val idx = none) ∧
        (∀ i b, u.indices[i]? = some b →
          mixedRadix (gatherSizes ca.shape (gatherM ca.shape ca.array.shape u.axis) u.axis) b
            = cdigits u.axis (gatherM ca.shape ca.array.shape u.axis) idx →
          buf.val idx
            = ca.array.val (gatherProj u.axis (gatherM ca.shape ca.array.shape u.axis) i idx)) := by
  have hdec : ∀ b, codeDecode (gatherM ca.shape ca.array.shape u.axis)
      (zzzOf (gatherSizes ca.shape (gatherM ca.shape ca.array.shape u.axis) u.axis)) b
      = mixedRadix (gatherSizes ca.shape (gatherM ca.shape ca.array.shape u.axis) u.axis) b := by
    intro b
    have h2 := codeDecode_eq_mixedRadix
      (gatherSizes ca.shape (gatherM ca.shape ca.array.shape u.axis) u.axis) b
      (by rw [gatherSizes_length]; exact hm)
    rw [gatherSizes_length] at h2
    rw [zzzOf_eq_zzzRec]
    exact h2
  refine ⟨gatherRecon ca.shape ca.array u.axis u.indices, ?_, ?_, ?_⟩
  · unfold compGetItem reconstructU
    rw [hc]
    rfl
  · unfold gatherRecon
    rw [gatherLoop_shape]
    rfl
  · intro idx
    constructor
    · intro hmiss
      unfold gatherRecon
      rw [gatherLoop_miss]
      · rfl
      · intro b hb
        rw [hdec b]
        exact hmiss b hb
    · intro i b hget hdecb
      have hbmem : b ∈ u.indices := List.mem_iff_getElem?.mpr ⟨i, hget⟩
      have hothers : ∀ j b2, j ≠ i → u.indices[j]? = some b2 →
          codeDecode (gatherM ca.shape ca.array.shape u.axis)
            (zzzOf (gatherSizes ca.shape (gatherM ca.shape ca.array.shape u.axis) u.axis)) b2
            ≠ cdigits u.axis (gatherM ca.shape ca.array.shape u.axis) idx := by
        intro j b2 hne hj
        rw [hdec b2]
        intro habs
        have hb2mem : b2 ∈ u.indices := List.mem_iff_getElem?.mpr ⟨j, hj⟩
        have hb2b : b2 = b :=
          mixedRadix_inj _ b2 b (hrange b2 hb2mem) (hrange b hbmem) (habs.trans hdecb.symm)
        subst hb2b
        obtain ⟨hilt, hieq⟩ := List.getElem?_eq_some_iff.mp hget
        obtain ⟨hjlt, hjeq⟩ := List.getElem?_eq_some_iff.mp hj
        exact hne (hnodup.getElem_inj_iff.mp (hjeq.trans hieq.symm))
      unfold gatherRecon
      have h1 := gatherLoop_hit ca.array u.axis (gatherM ca.shape ca.array.shape u.axis)
        (zzzOf (gatherSizes ca.shape (gatherM ca.shape ca.array.shape u.axis) u.axis)) idx
        u.indices i 0 b (maskedAll ca.shape) hget (by rw [hdec b]; exact hdecb) hothers
      simpa using h1

/-- The gathered example payload `[100, 200, 300]` (sample axis only). -/
def gaPayload : MArr :=
  { shape := [3], val := fun f => some (([100, 200, 300] : List Int).getD (f 0) 0) }

/-- A gathered descriptor with sample axis 0 and gather indices
`[0, 2, 5]`. -/
def gaParams : UParams := ⟨0, [0, 2, 5], 0, 0, 0, 0, [], 0, 0, 0⟩

/-- A gathered compressed array of logical shape 2×3. -/
def gaArr : CompArr := CompArr.make gaPayload [2, 3] [("gathered", gaParams)]

/-- C3 witness: gather indices `[0,2,5]` against collapsed axes of sizes
`(2,3)` place the three samples at decoded coordinates `(0,0)`, `(0,2)`
and `(1,2)`; all other positions stay masked. -/
theorem gathered_mixed_radix_witness :
    (gaArr.compression = ("gathered", gaParams) :: [] ∧
     2 ≤ gatherM gaArr.shape gaArr.array.shape gaParams.axis ∧
     gaParams.indices.Nodup ∧
     (∀ b ∈ gaParams.indices,
        b < (gatherSizes gaArr.shape (gatherM gaArr.shape gaArr.array.shape gaParams.axis)
          gaParams.axis).prod)) ∧
    (∃ buf, compGetItem gaArr none = .ok buf ∧ buf.shape = gaArr.shape ∧
      ∀ idx : Nat → Nat,
        ((∀ b ∈ gaParams.indices,
            mixedRadix (gatherSizes gaArr.shape (gatherM gaArr.shape gaArr.array.shape
              gaParams.axis) gaParams.axis) b
              ≠ cdigits gaParams.axis (gatherM gaArr.shape gaArr.array.shape gaParams.axis) idx) →
          buf.val idx = none) ∧
        (∀ i b, gaParams.indices[i]? = some b →
          mixedRadix (gatherSizes gaArr.shape (gatherM gaArr.shape gaArr.array.shape
            gaParams.axis) gaParams.axis) b
            = cdigits gaParams.axis (gatherM gaArr.shape gaArr.array.shape gaParams.axis) idx →
          buf.val idx
            = gaArr.array.val (gatherProj gaParams.axis
                (gatherM gaArr.shape gaArr.array.shape gaParams.axis) i idx))) ∧
    readResult (compGetItem gaArr none) (fun _ => 0) = some (some 100) ∧
    readResult (compGetItem gaArr none) (fun i => if i = 0 then 0 else 2) = some (some 200) ∧
    readResult (compGetItem gaArr none) (fun i => if i = 0 then 1 else 2) = some (some 300) ∧
    readResult (compGetItem gaArr none) (fun i => if i = 0 then 0 else 1) = some none ∧
    readResult (compGetItem gaArr none) (fun i => if i = 0 then 1 else 0) = some none ∧
    readResult (compGetItem gaArr none) (fun _ => 1) = some none :=
  ⟨⟨rfl, by decide, by decide, by decide⟩,
   gathered_mixed_radix gaArr gaParams [] rfl (by decide) (by decide) (by decide),
   by decide, by decide, by decide, by decide, by decide, by decide⟩

/-- The single-collapsed-axis gathered payload `[7, 8]`. -/
def ga1Payload : MArr :=
  { shape := [2], val := fun f => some (([7, 8] : List Int).getD (f 0) 0) }

/-- A gathered descriptor with sample axis 0 and gather indices `[0, 2]`
against a single collapsed axis of size 3. -/
def ga1Params : UParams := ⟨0, [0, 2], 0, 0, 0, 0, [], 0, 0, 0⟩

/-- A gathered compressed array of logical shape `(3,)` with one collapsed
axis. -/
def ga1Arr : CompArr := CompArr.make ga1Payload [3] [("gathered", ga1Params)]

/-- C3 counterexample: with exactly one collapsed axis the decode loop of
the source never runs (`zzz` is empty and `xxx[-1] = b` sits inside the
loop), so every sample lands at coordinate 0.  Mixed-radix decomposition
of gather index 2 over sizes `(3,)` is `[2]`, so the claim requires the
buffer `[7, masked, 8]`; the code produces `[8, masked, masked]`. -/
theorem gathered_counterexample :
    gatherM ga1Arr.shape ga1Arr.array.shape ga1Params.axis = 1 ∧
    mixedRadix (gatherSizes ga1Arr.shape 1 0) 2 = [2] ∧
    readResult (compGetItem ga1Arr none) (fun _ => 0) = some (some 8) ∧
    readResult (compGetItem ga1Arr none) (fun _ => 2) = some none ∧
    ¬ (readResult (compGetItem ga1Arr none) (fun _ => 0) = some (some 7) ∧
       readResult (compGetItem ga1Arr none) (fun _ => 2) = some (some 8)) := by
  refine ⟨by decide, by decide, by decide, by decide, ?_⟩
  intro h
  exact absurd h.1 (by decide)

/-! ## NetCDFFileArray variable location (src/cfdm/data/filearray.py)

`NetCDFFileArray.__getitem__` looks the variable up by name when `ncvar`
is set (`nc.vars[ncvar]`, a dict lookup whose failure raises), and
otherwise scans `nc.vars.itervalues()` for the first variable whose
`_varid` matches (falling through with no array bound, which also
raises).  Both failures are the spec's `VariableNotFound`; the embedding
returns them as an explicit error. -/

/-- A netCDF variable: its numeric id and its data. -/
structure NcVar where
  varid : Nat
  vdata : MArr

/-- An open netCDF dataset: its ordered name→variable mapping (the
`nc.vars` attribute of the source). -/
structure Dataset where
  vars : List (String × NcVar)

/-- Failure mode of a file-backed read. -/
inductive ReadErr where
| variableNotFound

/-- Locate the variable of a `NetCDFFileArray`: by name when `ncvar` is
set, otherwise by scanning for the first variable with the given numeric
id; an unresolvable lookup is the `VariableNotFound` failure. -/
def netcdfLocate (nc : Dataset) (ncvar : Option String) (varid : Nat) : Except ReadErr NcVar :=
  match ncvar with
  | some name =>
    match nc.vars.find? (fun p => p.1 == name) with
    | some p => .ok p.2
    | none => .error .variableNotFound
  | none =>
    match (nc.vars.map Prod.snd).find? (fun v => v.varid == varid) with
    | some v => .ok v
    | none => .error .variableNotFound

/-- The read of a `NetCDFFileArray` as far as C7 is concerned: locate the
variable, then take the requested subspace of its data; a location
failure propagates to the caller. -/
def ncGetItem (nc : Dataset) (ncvar : Option String) (varid : Nat)
    (indices : Option (List AxIdx)) : Except ReadErr MArr :=
  (netcdfLocate nc ncvar varid).map (fun v => get_subspace v.vdata indices true)

/-- C7: the variable is located by name when a name is set and otherwise
by scanning for a matching numeric id; the read fails with
`VariableNotFound` exactly when neither resolves, and a successful
location returns a variable with the requested name or id. -/
theorem netcdf_locate_spec (nc : Dataset) (ncvar : Option String) (varid : Nat)
    (indices : Option (List AxIdx)) :
    (netcdfLocate nc ncvar varid = .error .variableNotFound ↔
       ((∀ name, ncvar = some name → ∀ p ∈ nc.vars, p.1 ≠ name) ∧
        (ncvar = none → ∀ p ∈ nc.vars, p.2.varid ≠ varid))) ∧
    (∀ name, ncvar = some name → (∃ p ∈ nc.vars, p.1 = name) →
       ∃ p, p ∈ nc.vars ∧ p.1 = name ∧ netcdfLocate nc ncvar varid = .ok p.2) ∧
    (ncvar = none → (∃ p ∈ nc.vars, p.2.varid = varid) →
       ∃ p, p ∈ nc.vars ∧ p.2.varid = varid ∧ netcdfLocate nc ncvar varid = .ok p.2) ∧
    (ncGetItem nc ncvar varid indices = .error .variableNotFound ↔
       netcdfLocate nc ncvar varid = .error .variableNotFound) := by
  have hkey : ∀ name, (netcdfLocate nc (some name) varid = .error .variableNotFound ↔
      nc.vars.find? (fun p => p.1 == name) = none) := by
    intro name
    simp only [netcdfLocate]
    cases hf : nc.vars.find? (fun p => p.1 == name) with
    | some p => simp
    | none => simp
  have hkey2 : (netcdfLocate nc none varid = .error .variableNotFound ↔
      (nc.vars.map Prod.snd).find? (fun v => v.varid == varid) = none) := by
    simp only [netcdfLocate]
    cases hf : (nc.vars.map Prod.snd).find? (fun v => v.varid == varid) with
    | some p => simp
    | none => simp
  refine ⟨?_, ?_, ?_, ?_⟩
  · cases ncvar with
    | some name =>
      rw [hkey name, List.find?_eq_none]
      constructor
      · intro h
        refine ⟨?_, fun hx => (nomatch hx)⟩
        intro name2 hname2 p hmem
        have hname3 : name = name2 := by
          injection hname2
        subst hname3
        intro habs
        exact h p hmem (by simpa using habs)
      · intro hpair x hx
        have := hpair.1 name rfl x hx
        simpa using this
    | none =>
      rw [hkey2, List.find?_eq_none]
      constructor
      · intro h
        refine ⟨fun name2 hname2 => (nomatch hname2), fun _ p hmem habs => ?_⟩
        have := h p.2 (List.mem_map.mpr ⟨p, hmem, rfl⟩)
        simp only [beq_iff_eq] at this
        exact this habs
      · intro hpair v hv
        obtain ⟨q, hq, hqv⟩ := List.mem_map.mp hv
        have := hpair.2 rfl q hq
        rw [hqv] at this
        simpa using this
  · intro name hname hex
    subst hname
    obtain ⟨p, hmem, hpn⟩ := hex
    have hsome : (nc.vars.find? (fun q => q.1 == name)).isSome := by
      rw [List.find?_isSome]
      exact ⟨p, hmem, by simpa using hpn⟩
    obtain ⟨q, hq⟩ := Option.isSome_iff_exists.mp hsome
    refine ⟨q, List.mem_of_find?_eq_some hq, by simpa using List.find?_some hq, ?_⟩
    simp only [netcdfLocate, hq]
  · intro hnone hex
    subst hnone
    obtain ⟨p, hmem, hpv⟩ := hex
    have hsome : ((nc.vars.map Prod.snd).find? (fun v => v.varid == varid)).isSome := by
      rw [List.find?_isSome]
      exact ⟨p.2, List.mem_map.mpr ⟨p, hmem, rfl⟩, by simpa using hpv⟩
    obtain ⟨v, hv⟩ := Option.isSome_iff_exists.mp hsome
    obtain ⟨q, hqmem, hqv⟩ := List.mem_map.mp (List.mem_of_find?_eq_some hv)
    refine ⟨q, hqmem, ?_, ?_⟩
    · have := List.find?_some hv
      rw [hqv]
      simpa using this
    · simp only [netcdfLocate, hv, hqv]
  · unfold ncGetItem
    cases netcdfLocate nc ncvar varid with
    | error e =>
      cases e
      simp [Except.map]
    | ok v => simp [Except.map]

/-- A concrete dataset with the single variable `"tas"` of id 7. -/
def nc0 : Dataset := ⟨[("tas", ⟨7, maskedAll [2]⟩)]⟩

/-- C7 witness: in the concrete dataset, an absent name and an unmatched
id both fail with `VariableNotFound`; the present name and the present id
both locate the variable. -/
theorem netcdf_locate_spec_witness :
    netcdfLocate nc0 (some "pr") 0 = .error .variableNotFound ∧
    netcdfLocate nc0 none 5 = .error .variableNotFound ∧
    (∃ p, p ∈ nc0.vars ∧ p.1 = "tas" ∧ netcdfLocate nc0 (some "tas") 0 = .ok p.2) ∧
    (∃ p, p ∈ nc0.vars ∧ p.2.varid = 7 ∧ netcdfLocate nc0 none 7 = .ok p.2) ∧
    ncGetItem nc0 (some "pr") 0 none = .error .variableNotFound :=
  ⟨(netcdf_locate_spec nc0 (some "pr") 0 none).1.mpr
     ⟨fun name hname => (by cases hname; decide), fun h => (nomatch h)⟩,
   (netcdf_locate_spec nc0 none 5 none).1.mpr
     ⟨fun name hname => (nomatch hname), fun _ => (by decide)⟩,
   (netcdf_locate_spec nc0 (some "tas") 0 none).2.1 "tas" rfl
     ⟨("tas", ⟨7, maskedAll [2]⟩), by simp [nc0], rfl⟩,
   (netcdf_locate_spec nc0 none 7 none).2.2.1 rfl
     ⟨("tas", ⟨7, maskedAll [2]⟩), by simp [nc0], rfl⟩,
   (netcdf_locate_spec nc0 (some "pr") 0 none).2.2.2.mpr
     ((netcdf_locate_spec nc0 (some "pr") 0 none).1.mpr
       ⟨fun name hname => (by cases hname; decide), fun h => (nomatch h)⟩)⟩

/-! ## Fixed-width text collapse (NetCDFFileArray.__getitem__)

After reading the raw values, the source collapses the trailing
character axis of a fixed-width text variable: with `strlen` the size of
the raw read's last axis, it reflows to `(outer_size, strlen)`, fills
masked characters with the empty string, joins and right-strips each row,
rebuilds with dtype `S{strlen}`, reshapes to the outer shape, and masks
rows that reduced to the empty string.  (The helpers `numpy_ma_resize`,
`numpy_array`, `numpy_ma_where` and `numpy_ma_masked` resolve to the
matching `numpy`/`numpy.ma` functions.)  The embedding indexes the outer
positions directly, which agrees with the row-major reflow because the
total size is unchanged. -/

/-- A raw character read: a shape, a valuation into possibly masked
characters, and whether the element type kind is fixed-width text
(`dtype.kind == 'S'`). -/
structure CArr where
  shape : List Nat
  val : (Nat → Nat) → Option Char
  kindS : Bool

/-- A fixed-width text array after the collapse: the outer shape, the
declared text width of the element type, and possibly masked strings. -/
structure SArr where
  shape : List Nat
  width : Nat
  val : (Nat → Nat) → Option String

/-- The blank padding character stripped from row ends. -/
def padChar : Char := Char.ofNat 32

/-- `row.rstrip()`: drop trailing padding. -/
def rstripPad (l : List Char) : List Char :=
  (l.reverse.dropWhile (fun c => c == padChar)).reverse

/-- The characters of one row: the raw cells along the trailing axis at a
given outer position, with masked cells contributing nothing (the source
fills them with the empty string before joining). -/
def rowChars (raw : CArr) (idx : Nat → Nat) : List Char :=
  (List.range (raw.shape.getD (raw.shape.length - 1) 0)).filterMap
    (fun k => raw.val (Function.update idx (raw.shape.length - 1) k))

/-- The collapsed string array: one axis shorter, text width `strlen`
(the raw trailing axis size, from `dtype='S%d' % strlen`), each row the
join of its unmasked characters with trailing padding stripped, masked
when that reduces to the empty string. -/
def collapseStrings (raw : CArr) : SArr :=
  { shape := raw.shape.dropLast,
    width := raw.shape.getD (raw.shape.length - 1) 0,
    val := fun idx =>
      if rstripPad (rowChars raw idx) = [] then none
      else some (String.mk (rstripPad (rowChars raw idx))) }

/-- The dispatch of the collapse: it fires when the element kind is
fixed-width text and the raw rank exceeds
`self.ndim - gathered - ragged`. -/
def ncStringFixup (raw : CArr) (ndim gathered ragged : Nat) : CArr ⊕ SArr :=
  if raw.kindS = true ∧ ndim - gathered - ragged < raw.shape.length then
    Sum.inr (collapseStrings raw)
  else Sum.inl raw

/-- C6 (amended): for a fixed-width text raw read with exactly one more
trailing axis than the declared rank, the trailing character axis is
collapsed: the result is one axis shorter, its element type is fixed-width
text sized to the raw trailing character-axis length, each outer position
holds its concatenated and right-stripped characters, and rows reducing to
the empty string are masked. -/
theorem string_collapse (raw : CArr) (ndim : Nat)
    (hk : raw.kindS = true) (hr : raw.shape.length = ndim + 1) :
    ncStringFixup raw ndim 0 0 = Sum.inr (collapseStrings raw) ∧
    (collapseStrings raw).shape = raw.shape.dropLast ∧
    (collapseStrings raw).shape.length = ndim ∧
    (collapseStrings raw).width = raw.shape.getD ndim 0 ∧
    ∀ idx : Nat → Nat,
      (rstripPad (rowChars raw idx) = [] → (collapseStrings raw).val idx = none) ∧
      (rstripPad (rowChars raw idx) ≠ [] →
        (collapseStrings raw).val idx = some (String.mk (rstripPad (rowChars raw idx)))) := by
  refine ⟨?_, rfl, ?_, ?_, ?_⟩
  · unfold ncStringFixup
    rw [if_pos ⟨hk, by omega⟩]
  · simp [collapseStrings, List.length_dropLast, hr]
  · simp only [collapseStrings, hr, Nat.add_sub_cancel]
  · intro idx
    constructor
    · intro h
      simp [collapseStrings, h]
    · intro h
      simp [collapseStrings, h]

/-- A concrete 1×2 fixed-width text raw read holding the single row
`['a', ' ']`. -/
def strRaw : CArr :=
  { shape := [1, 2],
    val := fun f => some (if f 1 = 0 then Char.ofNat 97 else padChar),
    kindS := true }

/-- C6 witness: the collapse of the concrete raw read is one axis
shorter, has width 2 and reads row 0 as the stripped string of `'a'`. -/
theorem string_collapse_witness :
    (strRaw.kindS = true ∧ strRaw.shape.length = 1 + 1) ∧
    (ncStringFixup strRaw 1 0 0 = Sum.inr (collapseStrings strRaw) ∧
     (collapseStrings strRaw).shape = strRaw.shape.dropLast ∧
     (collapseStrings strRaw).shape.length = 1 ∧
     (collapseStrings strRaw).width = strRaw.shape.getD 1 0 ∧
     ∀ idx : Nat → Nat,
       (rstripPad (rowChars strRaw idx) = [] → (collapseStrings strRaw).val idx = none) ∧
       (rstripPad (rowChars strRaw idx) ≠ [] →
         (collapseStrings strRaw).val idx = some (String.mk (rstripPad (rowChars strRaw idx))))) ∧
    (collapseStrings strRaw).val (fun _ => 0) = some (String.mk [Char.ofNat 97]) :=
  ⟨⟨rfl, rfl⟩, string_collapse strRaw 1 rfl rfl, by decide⟩

/-- C6 counterexample: the claim sizes the result's element type to the
longest row observed; the code sizes it to the raw trailing axis length
(`dtype='S%d' % strlen`).  For the concrete raw read `[['a',' ']]` the
only observed row strips to length 1, yet the produced width is 2. -/
theorem string_collapse_counterexample :
    (collapseStrings strRaw).width = 2 ∧
    ((collapseStrings strRaw).val (fun _ => 0)).map String.length = some 1 ∧
    (2 : Nat) ≠ 1 := by
  refine ⟨by decide, by decide, by decide⟩

/-! ## Structural immutability (C9)

None of `__getitem__`, `open`, `close` assigns to any attribute of the
array objects (`CompressedArray.__getitem__` works on locals only,
`close` only touches the file layer, `FileArray.copy` rebuilds a new
object from a shallow copy of `__dict__`).  Each operation is therefore
embedded as a state transformer that either leaves the object unchanged
or, for `copy`, rebuilds it field by field. -/

/-- The operations a caller can perform on an array object after
construction. -/
inductive ArrOp where
| read (indices : Option (List AxIdx))
| openf
| closef
| copyf

/-- The state transformer of a `CompressedArray`: `__getitem__` and
`close` assign no attribute; `copy` rebuilds the object from a shallow
copy of its `__dict__`. -/
def CompArr.step (ca : CompArr) : ArrOp → CompArr
| .copyf => ⟨ca.array, ca.compression, ca.shape, ca.ndim, ca.size⟩
| _ => ca

/-- A `NetCDFFileArray`: file path, variable name or id, and the declared
rank, shape and size. -/
structure NcFileArr where
  file : String
  ncvar : Option String
  varid : Nat
  ndim : Nat
  shape : List Nat
  size : Nat

/-- The state transformer of a `NetCDFFileArray`: `__getitem__`, `open`
and `close` assign no attribute; `copy` rebuilds the object from a
shallow copy of its `__dict__`. -/
def NcFileArr.step (fa : NcFileArr) : ArrOp → NcFileArr
| .copyf => ⟨fa.file, fa.ncvar, fa.varid, fa.ndim, fa.shape, fa.size⟩
| _ => fa

/-- An in-memory `NumpyArray`: its backing dense buffer, whose shape the
`shape` property reports. -/
structure NpMemArr where
  arr : MArr

/-- The state transformer of a `NumpyArray`: `__getitem__` never rebinds
the backing buffer. -/
def NpMemArr.step (ma : NpMemArr) : ArrOp → NpMemArr
| _ => ma

theorem compArr_step_preserves (ca : CompArr) (op : ArrOp) :
    (ca.step op).shape = ca.shape ∧ (ca.step op).ndim = ca.ndim ∧
    (ca.step op).size = ca.size := by
  cases op <;> exact ⟨rfl, rfl, rfl⟩

theorem ncFileArr_step_preserves (fa : NcFileArr) (op : ArrOp) :
    (fa.step op).shape = fa.shape ∧ (fa.step op).ndim = fa.ndim ∧
    (fa.step op).size = fa.size := by
  cases op <;> exact ⟨rfl, rfl, rfl⟩

/-- C9: for every array object (compressed, file-backed or in-memory) and
every sequence of reads, opens, closes and copies, the shape — and the
rank and element count — observed afterwards equals the shape at
construction. -/
theorem shape_immutable :
    (∀ (a : MArr) (sh : List Nat) (c : List (String × UParams)) (ops : List ArrOp),
       (ops.foldl CompArr.step (CompArr.make a sh c)).shape = sh ∧
       (ops.foldl CompArr.step (CompArr.make a sh c)).ndim = sh.length ∧
       (ops.foldl CompArr.step (CompArr.make a sh c)).size = sh.prod) ∧
    (∀ (fa : NcFileArr) (ops : List ArrOp),
       (ops.foldl NcFileArr.step fa).shape = fa.shape ∧
       (ops.foldl NcFileArr.step fa).ndim = fa.ndim ∧
       (ops.foldl NcFileArr.step fa).size = fa.size) ∧
    (∀ (ma : NpMemArr) (ops : List ArrOp),
       (ops.foldl NpMemArr.step ma).arr.shape = ma.arr.shape) := by
  have hcomp : ∀ (ops : List ArrOp) (ca : CompArr),
      (ops.foldl CompArr.step ca).shape = ca.shape ∧
      (ops.foldl CompArr.step ca).ndim = ca.ndim ∧
      (ops.foldl CompArr.step ca).size = ca.size := by
    intro ops
    induction ops with
    | nil => intro ca; exact ⟨rfl, rfl, rfl⟩
    | cons op rest IH =>
      intro ca
      have h1 := compArr_step_preserves ca op
      have h2 := IH (ca.step op)
      simp only [List.foldl_cons]
      exact ⟨h2.1.trans h1.1, h2.2.1.trans h1.2.1, h2.2.2.trans h1.2.2⟩
  have hfile : ∀ (ops : List ArrOp) (fa : NcFileArr),
      (ops.foldl NcFileArr.step fa).shape = fa.shape ∧
      (ops.foldl NcFileArr.step fa).ndim = fa.ndim ∧
      (ops.foldl NcFileArr.step fa).size = fa.size := by
    intro ops
    induction ops with
    | nil => intro fa; exact ⟨rfl, rfl, rfl⟩
    | cons op rest IH =>
      intro fa
      have h1 := ncFileArr_step_preserves fa op
      have h2 := IH (fa.step op)
      simp only [List.foldl_cons]
      exact ⟨h2.1.trans h1.1, h2.2.1.trans h1.2.1, h2.2.2.trans h1.2.2⟩
  have hmem : ∀ (ops : List ArrOp) (ma : NpMemArr),
      (ops.foldl NpMemArr.step ma).arr.shape = ma.arr.shape := by
    intro ops
    induction ops with
    | nil => intro ma; rfl
    | cons op rest IH =>
      intro ma
      simp only [List.foldl_cons]
      exact IH (ma.step op)
  exact ⟨fun a sh c ops => hcomp ops (CompArr.make a sh c),
         fun fa ops => hfile ops fa, fun ma ops => hmem ops ma⟩

/-! ## Aliasing model of `Array.get_subspace` (C5)

The value-level model above cannot express aliasing, so the effectful
reading of `Array.get_subspace` is embedded once more over an explicit
store: every numpy buffer carries an identity, basic slicing returns a
view onto the same buffer, `take` and advanced indexing allocate a fresh
buffer (numpy copies there), and the `copy` stage allocates in both of
its branches — `array.copy()` for the general case, and the explicit
`numpy.ma.empty` + assign for the zero-dimensional masked case, which is
exactly the source's workaround for `numpy.ma.copy` failing on rank 0. -/

/-- A numpy array value in the store model: the identity of its backing
buffer, whether it is a masked array, its shape, and the view map from
its logical indices to backing-buffer indices. -/
structure NpV where
  bufId : Nat
  isMA : Bool
  shape : List Nat
  emap : List Nat → List Nat

/-- The store: the next fresh buffer identity and the contents of every
buffer. -/
structure St where
  next : Nat
  mem : Nat → List Nat → Option Int

/-- Read one cell of an array through its view map. -/
def readSt (st : St) (v : NpV) (idx : List Nat) : Option Int :=
  st.mem v.bufId (v.emap idx)

/-- Mutate one cell of the buffer with identity `b`. -/
def writeSt (st : St) (b : Nat) (idx : List Nat) (x : Option Int) : St :=
  { next := st.next,
    mem := fun b2 j => if b2 = b ∧ j = idx then x else st.mem b2 j }

/-- Allocate a fresh buffer holding the given contents. -/
def allocSt (st : St) (c : List Nat → Option Int) : St × Nat :=
  ({ next := st.next + 1,
     mem := fun b j => if b = st.next then c j else st.mem b j }, st.next)

/-- The per-component source position of a combined index (list form). -/
def selListIdx (shape : List Nat) (ix : List AxIdx) (idx : List Nat) : List Nat :=
  (List.range ix.length).map
    (fun i => (axSel (shape.getD i 0) (ix.getD i slAll)).getD (idx.getD i 0) 0)

/-- Basic (slice-only) indexing: numpy returns a view on the same
buffer. -/
def viewApply (v : NpV) (ix : List AxIdx) : NpV :=
  { bufId := v.bufId, isMA := v.isMA,
    shape := List.zipWith (fun d x => (axSel d x).length) v.shape ix,
    emap := fun idx => v.emap (selListIdx v.shape ix idx) }

/-- Combined indexing with one integer-sequence axis: numpy advanced
indexing copies into a fresh buffer. -/
def advancedCopy (st : St) (v : NpV) (ix : List AxIdx) : St × NpV :=
  let r := allocSt st (fun idx => readSt st v (selListIdx v.shape ix idx))
  (r.1, { bufId := r.2, isMA := v.isMA,
          shape := List.zipWith (fun d x => (axSel d x).length) v.shape ix,
          emap := id })

/-- `numpy.take` / `numpy.ma.take`: copies into a fresh buffer. -/
def takeAxSt (st : St) (v : NpV) (l : List Nat) (axis : Nat) : St × NpV :=
  let r := allocSt st (fun idx => readSt st v (idx.set axis (l.getD (idx.getD axis 0) 0)))
  (r.1, { bufId := r.2, isMA := v.isMA, shape := v.shape.set axis l.length, emap := id })

/-- The take loop of `Array.get_subspace`, store level. -/
def takeLoopSt : St → NpV → List AxIdx → List Nat → St × NpV × List AxIdx
| st, v, ix, [] => (st, v, ix)
| st, v, ix, axis :: rest =>
  let r := takeAxSt st v (intsAt ix axis) axis
  takeLoopSt r.1 r.2 (ix.set axis slAll) rest

/-- The indexing stage of `Array.get_subspace`, store level: nothing for
`Ellipsis`; a view for slice-only indices; an advanced-indexing copy for
one integer-sequence axis; the take loop (plus a final slice view when
slice entries remain) for two or more. -/
def getSubspaceStIdx (st : St) (v : NpV) (indices : Option (List AxIdx)) : St × NpV :=
  match indices with
  | none => (st, v)
  | some ix =>
    if (listAxes ix).length < 2 then
      if (listAxes ix).length = 0 then (st, viewApply v ix) else advancedCopy st v ix
    else
      let r := takeLoopSt st v ix (listAxes ix)
      if (listAxes ix).length < ix.length then (r.1, viewApply r.2.1 r.2.2)
      else (r.1, r.2.1)

/-- `Array.get_subspace`, store level.  When `copy` is set the result is
rebuilt in a fresh buffer: through `numpy.ma.empty` plus assignment for a
zero-dimensional masked value, through `array.copy()` otherwise. -/
def getSubspaceSt (st : St) (v : NpV) (indices : Option (List AxIdx)) (copy : Bool) :
    St × NpV :=
  let r1 := getSubspaceStIdx st v indices
  if copy then
    if r1.2.isMA = true ∧ r1.2.shape = [] then
      let r2 := allocSt r1.1 (fun idx => readSt r1.1 r1.2 idx)
      (r2.1, { bufId := r2.2, isMA := true, shape := [], emap := id })
    else
      let r2 := allocSt r1.1 (fun idx => readSt r1.1 r1.2 idx)
      (r2.1, { bufId := r2.2, isMA := r1.2.isMA, shape := r1.2.shape, emap := id })
  else r1

theorem takeLoopSt_next_mono : ∀ (A : List Nat) (st : St) (v : NpV) (ix : List AxIdx),
    st.next ≤ (takeLoopSt st v ix A).1.next := by
  intro A
  induction A with
  | nil => intro st v ix; exact Nat.le_refl _
  | cons axis rest IH =>
    intro st v ix
    simp only [takeLoopSt]
    have h1 := IH (takeAxSt st v (intsAt ix axis) axis).1
      (takeAxSt st v (intsAt ix axis) axis).2 (ix.set axis slAll)
    have h2 : st.next ≤ (takeAxSt st v (intsAt ix axis) axis).1.next := by
      simp [takeAxSt, allocSt]
    omega

theorem getSubspaceStIdx_next (st : St) (v : NpV) (indices : Option (List AxIdx)) :
    st.next ≤ (getSubspaceStIdx st v indices).1.next := by
  unfold getSubspaceStIdx
  cases indices with
  | none => exact Nat.le_refl _
  | some ix =>
    by_cases h2 : (listAxes ix).length < 2
    · by_cases h0 : (listAxes ix).length = 0
      · simp [h2, h0]
      · simp only [h2, h0, if_true, if_false, ite_true, ite_false]
        simp [advancedCopy, allocSt]
    · have hm := takeLoopSt_next_mono (listAxes ix) st v ix
      by_cases hrem : (listAxes ix).length < ix.length
      · simp only [h2, hrem, if_true, if_false, ite_true, ite_false]
        exact hm
      · simp only [h2, hrem, if_true, if_false, ite_true, ite_false]
        exact hm

/-- C5: extraction with `copy = True` never aliases the source buffer —
the result's buffer identity is fresh, and mutating any cell of the
result leaves every cell of the source unchanged — including the
zero-dimensional masked case, which goes through the explicit
allocate-and-assign branch. -/
theorem copy_unaliased (st : St) (v : NpV) (indices : Option (List AxIdx))
    (h : v.bufId < st.next) :
    (getSubspaceSt st v indices true).2.bufId ≠ v.bufId ∧
    ∀ widx x ridx,
      readSt (writeSt (getSubspaceSt st v indices true).1
          (getSubspaceSt st v indices true).2.bufId widx x) v ridx
        = readSt (getSubspaceSt st v indices true).1 v ridx := by
  have hmono := getSubspaceStIdx_next st v indices
  have hbuf : (getSubspaceSt st v indices true).2.bufId
      = (getSubspaceStIdx st v indices).1.next := by
    unfold getSubspaceSt
    by_cases hma : (getSubspaceStIdx st v indices).2.isMA = true ∧
        (getSubspaceStIdx st v indices).2.shape = []
    · simp [hma, allocSt]
    · simp [hma, allocSt]
  have hneq : (getSubspaceSt st v indices true).2.bufId ≠ v.bufId := by
    rw [hbuf]
    omega
  refine ⟨hneq, ?_⟩
  intro widx x ridx
  simp only [readSt, writeSt]
  rw [if_neg]
  intro hcond
  exact hneq (hcond.1.symm)

/-- A store with one allocated (empty) buffer. -/
def st0 : St := { next := 1, mem := fun _ _ => none }

/-- A zero-dimensional masked array in buffer 0. -/
def v0 : NpV := { bufId := 0, isMA := true, shape := [], emap := id }

/-- A one-dimensional unmasked array in buffer 0. -/
def v1 : NpV := { bufId := 0, isMA := false, shape := [2], emap := id }

/-- C5 witness: copying extraction of the rank-0 masked array and of an
ordinary array both produce buffers unaliased with the source. -/
theorem copy_unaliased_witness :
    v0.bufId < st0.next ∧
    ((getSubspaceSt st0 v0 none true).2.bufId ≠ v0.bufId ∧
     ∀ widx x ridx,
       readSt (writeSt (getSubspaceSt st0 v0 none true).1
           (getSubspaceSt st0 v0 none true).2.bufId widx x) v0 ridx
         = readSt (getSubspaceSt st0 v0 none true).1 v0 ridx) ∧
    ((getSubspaceSt st0 v1 (some [slAll]) true).2.bufId ≠ v1.bufId ∧
     ∀ widx x ridx,
       readSt (writeSt (getSubspaceSt st0 v1 (some [slAll]) true).1
           (getSubspaceSt st0 v1 (some [slAll]) true).2.bufId widx x) v1 ridx
         = readSt (getSubspaceSt st0 v1 (some [slAll]) true).1 v1 ridx) :=
  ⟨by decide, copy_unaliased st0 v0 none (by decide),
   copy_unaliased st0 v1 (some [slAll]) (by decide)⟩

end Cfdm
